import Mathlib

set_option autoImplicit false

/-!
Verification of the AIVOLVE study-hub text pipeline (`src/app.py`).

The four core components — extractive summarizer, quiz synthesizer, concept
extractor and answer scorer — are embedded shallowly.  External linguistic
services (NLTK sentence splitting, word tokenization, POS tagging and the
stop-word corpus) are not part of the repository; they are modelled as an
abstract `Ling` structure of provided functions, exactly the role the design
assigns them.  Python strings are modelled over their ASCII fragment:
`str.lower`, `str.isalnum`, `str.isalpha`, `str.capitalize`, `str.strip` are
given their ASCII meanings (Lean's `Char.toLower`/`Char.toUpper` are likewise
ASCII-only).  Python `float` arithmetic on sentence scores is idealized as
exact rational arithmetic in `ℚ`; Python's stable `sorted` is modelled by
`List.insertionSort`, which places an element before all later elements it
ties with, matching CPython's stability guarantee (with `reverse=True`, equal
elements keep their original order).  The `random` module becomes an explicit
state-threaded source of choices, as §9 of the design itself recommends.
-/

namespace AIVOLVE

/-! ## Python string primitives (ASCII fragment) -/

/-- Model of Python `str.lower()` (ASCII). -/
def pyLower (s : String) : String := String.mk (s.data.map Char.toLower)

/-- Model of Python `str.isalnum()`: non-empty and every character alphanumeric. -/
def pyIsAlnum (s : String) : Bool := !s.data.isEmpty && s.data.all Char.isAlphanum

/-- Model of Python `str.isalpha()`: non-empty and every character alphabetic. -/
def pyIsAlpha (s : String) : Bool := !s.data.isEmpty && s.data.all Char.isAlpha

/-- Model of Python `str.strip()` with no argument: drop whitespace from both ends. -/
def pyStrip (s : String) : String :=
  String.mk (((s.data.dropWhile Char.isWhitespace).reverse.dropWhile
    Char.isWhitespace).reverse)

/-- Characters stripped by `target.strip('.,;:!?')` in `generate_quiz`. -/
def punctChars : List Char := ['.', ',', ';', ':', '!', '?']

/-- Model of Python `str.strip('.,;:!?')`: drop those characters from both ends. -/
def pyStripPunct (s : String) : String :=
  String.mk (((s.data.dropWhile (punctChars.contains ·)).reverse.dropWhile
    (punctChars.contains ·)).reverse)

/-- Model of Python `str.capitalize()`: first character upper-cased, rest lower-cased. -/
def pyCapitalize (s : String) : String :=
  match s.data with
  | [] => ""
  | c :: rest => String.mk (c.toUpper :: rest.map Char.toLower)

/-- Index of the first occurrence of `t` as a contiguous sublist of `s`
(Python `str.find` / `re` literal search).  `none` when there is no occurrence. -/
def strFind (t : List Char) : List Char → Option Nat
  | [] => if t.isPrefixOf ([] : List Char) then some 0 else none
  | c :: rest =>
    if t.isPrefixOf (c :: rest) then some 0 else (strFind t rest).map (· + 1)

/-- Case-insensitive first-occurrence search, as performed by
`re.compile(re.escape(target), re.IGNORECASE)` (ASCII case folding). -/
def findCI (t s : List Char) : Option Nat :=
  strFind (t.map Char.toLower) (s.map Char.toLower)

/-- Model of `pattern.sub('____', sent, count=1)` for the escaped,
case-insensitive literal pattern `target`: replace the first case-insensitive
occurrence of `target` in `s` by `repl`, or return `s` unchanged. -/
def ciSubFirst (target repl s : String) : String :=
  match findCI target.data s.data with
  | none => s
  | some i => String.mk (s.data.take i ++ repl.data ++ s.data.drop (i + target.data.length))

/-- Model of Python's `in` operator on strings (substring test). -/
def isSubstr (needle hay : String) : Bool := (strFind needle.data hay.data).isSome

/-! ## External linguistic services (NLTK), abstracted per the design -/

/-- External linguistic capabilities consumed by the pipeline:
`sent_tokenize`, `word_tokenize`, `pos_tag` and the English stop-word set.
These live outside the repository (NLTK); the pipeline is parametric in them. -/
structure Ling where
  sentTokenize : String → List String
  wordTokenize : String → List String
  posTag : List String → List (String × String)
  stopWords : List String

/-! ## Summarizer (`extractive_summary`, app.py lines 22-45) -/

/-- Tokens of the whole document used for the frequency table:
`[w.lower() for w in word_tokenize(text) if w.isalnum() and w.lower() not in stop_words]`. -/
def docWords (L : Ling) (text : String) : List String :=
  (L.wordTokenize text).filterMap fun w =>
    if pyIsAlnum w && !(L.stopWords.contains (pyLower w)) then some (pyLower w) else none

/-- Document frequency of a token (`FreqDist(words)`; `freq[w]` is the count,
0 when absent). -/
def docFreq (L : Ling) (text : String) (w : String) : Nat :=
  (docWords L text).count w

/-- Tokens of one sentence used for scoring:
`[w.lower() for w in word_tokenize(sent) if w.isalnum()]` (stop words kept). -/
def sentWords (L : Ling) (sent : String) : List String :=
  (L.wordTokenize sent).filterMap fun w =>
    if pyIsAlnum w then some (pyLower w) else none

/-- Numerator of a sentence score:
`sum(freq[w] for w in sent_words if w in freq)`.  FreqDist membership
`w in freq` holds exactly when the count is positive, i.e. when `w`
appears in `docWords`. -/
def sentScoreNum (L : Ling) (text sent : String) : Nat :=
  (((sentWords L sent).filter fun w => (docWords L text).contains w).map
    (docFreq L text)).sum

/-- Score of one sentence, `score / len(sent_words)`, as an exact rational
(`mkRat a b` is the rational `a / b`). -/
def sentScore (L : Ling) (text sent : String) : ℚ :=
  mkRat (sentScoreNum L text sent) ((sentWords L sent).length)

/-- Loop of app.py lines 33-42 building the `scores` dict, one sentence at a
time.  A Python dict keeps keys in first-insertion order, and re-assigning an
existing key keeps its position; as the value is a pure function of the key,
re-assignment is a no-op, so a sentence string already present is skipped. -/
def scoresAux (L : Ling) (text : String) :
    List String → List (String × ℚ) → List (String × ℚ)
  | [], acc => acc
  | s :: rest, acc =>
    if (sentWords L s).isEmpty then scoresAux L text rest acc
    else if acc.any (fun p => p.1 == s) then scoresAux L text rest acc
    else scoresAux L text rest (acc ++ [(s, sentScore L text s)])

/-- The `scores` dict as an association list in key-insertion order. -/
def sentScores (L : Ling) (text : String) : List (String × ℚ) :=
  scoresAux L text (L.sentTokenize text) []

/-- Relation realizing `sorted(..., key=scores.get, reverse=True)`:
`a` may be placed before `b` when `b`'s score is at most `a`'s.  Python's
sort is stable, and `reverse=True` keeps equal elements in their original
(insertion) order; a stable sort under this relation is exactly that. -/
def scoreGe (a b : String × ℚ) : Prop := b.2 ≤ a.2

instance : DecidableRel scoreGe := fun a b => inferInstanceAs (Decidable (b.2 ≤ a.2))

/-- The sorted score pairs with their `[:num_sents]` truncation applied
(`sorted(scores, key=scores.get, reverse=True)[:num_sents]`, paired with
their scores). -/
def topPairs (L : Ling) (text : String) (n : Nat) : List (String × ℚ) :=
  ((sentScores L text).insertionSort scoreGe).take n

/-- The selected sentences, in the order they are joined into the summary. -/
def top_sentences (L : Ling) (text : String) (n : Nat) : List String :=
  (topPairs L text n).map Prod.fst

/-- Embedding of `extractive_summary(text, num_sents=4)` (app.py lines 22-45). -/
def extractive_summary (L : Ling) (text : String) (num_sents : Nat := 4) : String :=
  let sentences := L.sentTokenize text
  if sentences.length ≤ num_sents then String.intercalate " " sentences
  else String.intercalate " " (top_sentences L text num_sents)

/-! ## Concrete instances used to evaluate the claims

The pipeline only ever sees tokenizer OUTPUT, so any `Ling` instance honouring
the narrow contract of §6 of the design (order-preserving splitting) is a
legitimate test double.  `toyLing` splits sentences at `|` and words at
spaces, tags the word "budget" as a noun, and carries a small stop-word set. -/

/-- Splits a character list at any of the given separator characters. -/
def splitChars (seps : List Char) : List Char → List Char → List (List Char)
  | [], cur => [cur.reverse]
  | c :: rest, cur =>
    if seps.contains c then cur.reverse :: splitChars seps rest []
    else splitChars seps rest (c :: cur)

def splitWords (s : String) : List String :=
  ((splitChars [' ', '|'] s.data []).map String.mk).filter (fun w => w != "")

def splitSents (s : String) : List String :=
  ((splitChars ['|'] s.data []).map (fun cs => pyStrip (String.mk cs))).filter
    (fun w => w != "")

def toyLing : Ling where
  sentTokenize := splitSents
  wordTokenize := splitWords
  posTag := fun ws => ws.map fun w => (w, if w == "budget" then "NN" else "XX")
  stopWords := ["the", "is", "a", "in", "are", "and"]

/-- Document whose score ranking disagrees with document order:
sentence scores are 4, 5/2, 5/2, 2, 8/3 in order of appearance. -/
def c1text : String := "cats cats cats|dogs win|birds win|fish win|cats dogs birds"

/-- Document of five sentences none of which has an alphanumeric token. -/
def c10text : String := "%|%%|%%%|%%%%|%%%%%"

/-! ## Summarizer lemmas -/

instance : IsTotal (String × ℚ) scoreGe := ⟨fun a b => le_total b.2 a.2⟩

instance : IsTrans (String × ℚ) scoreGe := ⟨fun _ _ _ h1 h2 => le_trans h2 h1⟩

/-- Every entry of the `scores` dict comes from a sentence of the document with
a non-empty token list, and carries that sentence's score. -/
theorem mem_scoresAux {L : Ling} {text : String} :
    ∀ {l : List String} {acc : List (String × ℚ)} {p : String × ℚ},
      p ∈ scoresAux L text l acc →
      p ∈ acc ∨ (p.1 ∈ l ∧ sentWords L p.1 ≠ [] ∧ p.2 = sentScore L text p.1)
  | [], _, _, h => Or.inl h
  | s :: rest, acc, p, h => by
    unfold scoresAux at h
    split at h
    · rcases mem_scoresAux h with h' | ⟨h1, h2, h3⟩
      · exact Or.inl h'
      · exact Or.inr ⟨List.mem_cons_of_mem _ h1, h2, h3⟩
    · split at h
      · rcases mem_scoresAux h with h' | ⟨h1, h2, h3⟩
        · exact Or.inl h'
        · exact Or.inr ⟨List.mem_cons_of_mem _ h1, h2, h3⟩
      · rcases mem_scoresAux h with h' | ⟨h1, h2, h3⟩
        · rcases List.mem_append.mp h' with h'' | h''
          · exact Or.inl h''
          · rcases List.mem_singleton.mp h'' with rfl
            refine Or.inr ⟨List.mem_cons_self _ _, ?_, rfl⟩
            simpa [List.isEmpty_iff] using (by assumption : ¬(sentWords L s).isEmpty = true)
        · exact Or.inr ⟨List.mem_cons_of_mem _ h1, h2, h3⟩

theorem mem_sentScores {L : Ling} {text : String} {p : String × ℚ}
    (h : p ∈ sentScores L text) :
    p.1 ∈ L.sentTokenize text ∧ sentWords L p.1 ≠ [] ∧ p.2 = sentScore L text p.1 := by
  rcases mem_scoresAux h with h' | h'
  · simp at h'
  · exact h'

/-- Every selected pair is an entry of the `scores` dict. -/
theorem topPairs_subset {L : Ling} {text : String} {n : Nat} {p : String × ℚ}
    (h : p ∈ topPairs L text n) : p ∈ sentScores L text :=
  (List.mem_insertionSort scoreGe).mp (List.mem_of_mem_take h)

/-- Dropping the tokens on which `f` vanishes does not change a sum of `f`. -/
theorem sum_map_filter_of_zero {α : Type} (f : α → Nat) (P : α → Bool)
    (h0 : ∀ w, P w = false → f w = 0) :
    ∀ ws : List α, ((ws.filter P).map f).sum = (ws.map f).sum := by
  intro ws
  induction ws with
  | nil => rfl
  | cons w rest ih =>
    cases hP : P w with
    | true => simp [List.filter_cons, hP, ih]
    | false => simp [List.filter_cons, hP, ih, h0 w hP]

/-- The summariser's sentence-score formula, with the unfiltered sum of the
claim: tokens absent from the frequency table contribute 0, so filtering them
out (as the code does) does not change the sum. -/
theorem sentScore_eq_div (L : Ling) (text sent : String) :
    sentScore L text sent =
      (((sentWords L sent).map fun w => ((docFreq L text w : ℚ))).sum) /
        ((sentWords L sent).length : ℚ) := by
  have hsum := sum_map_filter_of_zero (docFreq L text)
    (fun w => (docWords L text).contains w)
    (fun w hw => by
      have : w ∉ docWords L text := by simpa using hw
      simpa [docFreq] using List.count_eq_zero.mpr this)
    (sentWords L sent)
  have hnum : ((sentScoreNum L text sent : ℚ)) =
      (((sentWords L sent).map fun w => ((docFreq L text w : ℚ))).sum) := by
    rw [sentScoreNum, hsum, Nat.cast_list_sum, List.map_map]
    rfl
  rw [sentScore, Rat.mkRat_eq_divInt, Rat.divInt_eq_div, ← hnum]
  push_cast
  rfl

/-! ## C1 -/

/-- C1 (counterexample): a five-sentence document, target 4, whose selected
sentences are emitted in descending-score order, which here is NOT a
subsequence of the original sentence order (the last document sentence is
rendered second).  This falsifies the claim that the rendered summary follows
original document order. -/
theorem C1_counterexample :
    (toyLing.sentTokenize c1text).length = 5 ∧
    top_sentences toyLing c1text 4 =
      ["cats cats cats", "cats dogs birds", "dogs win", "birds win"] ∧
    ¬ (top_sentences toyLing c1text 4).Sublist (toyLing.sentTokenize c1text) ∧
    extractive_summary toyLing c1text 4 =
      "cats cats cats cats dogs birds dogs win birds win" := by decide

/-- C1 (amended): for every input whose sentence count exceeds the target, the
sentences of the rendered summary appear in descending score order (ties kept
in original appearance order by sort stability), not in original document
order; each rendered pair carries its sentence's score. -/
theorem C1_amended_score_order (L : Ling) (text : String) (n : Nat) :
    (topPairs L text n).Pairwise scoreGe ∧
    ∀ p ∈ topPairs L text n, p.2 = sentScore L text p.1 := by
  constructor
  · exact ((List.sorted_insertionSort scoreGe (sentScores L text)).sublist
      (List.take_sublist _ _))
  · intro p hp
    exact (mem_sentScores (topPairs_subset hp)).2.2

theorem C1_amended_score_order_witness :
    ("cats cats cats", (4 : ℚ)) ∈ topPairs toyLing c1text 4 ∧
    (4 : ℚ) = sentScore toyLing c1text "cats cats cats" :=
  ⟨by decide,
   (C1_amended_score_order toyLing c1text 4).2 ("cats cats cats", (4 : ℚ)) (by decide)⟩

/-! ## C2 -/

/-- C2: with more sentences than the target, each scored sentence receives
(sum over its alphanumeric lowercase tokens of the document frequency, absent
tokens contributing 0) divided by its alphanumeric token count (stop words
included in the denominator); a sentence without alphanumeric tokens is never
scored and never selected. -/
theorem C2_scoring (L : Ling) (text : String) (n : Nat) :
    (∀ p ∈ sentScores L text,
        p.1 ∈ L.sentTokenize text ∧ sentWords L p.1 ≠ [] ∧
        p.2 = (((sentWords L p.1).map fun w => ((docFreq L text w : ℚ))).sum) /
          ((sentWords L p.1).length : ℚ)) ∧
    (∀ s ∈ L.sentTokenize text, sentWords L s = [] → s ∉ top_sentences L text n) := by
  constructor
  · intro p hp
    obtain ⟨h1, h2, h3⟩ := mem_sentScores hp
    exact ⟨h1, h2, h3.trans (sentScore_eq_div L text p.1)⟩
  · intro s _ hs hmem
    obtain ⟨p, hp, rfl⟩ := List.mem_map.mp hmem
    exact (mem_sentScores (topPairs_subset hp)).2.1 hs

theorem C2_scoring_witness :
    ("cats cats cats", (4 : ℚ)) ∈ sentScores toyLing c1text ∧
    sentWords toyLing "cats cats cats" ≠ [] ∧
    "%" ∈ toyLing.sentTokenize c10text ∧ sentWords toyLing "%" = [] ∧
    "%" ∉ top_sentences toyLing c10text 4 :=
  ⟨by decide,
   ((C2_scoring toyLing c1text 4).1 ("cats cats cats", (4 : ℚ)) (by decide)).2.1,
   by decide, by decide,
   (C2_scoring toyLing c10text 4).2 "%" (by decide) (by decide)⟩

/-! ## C3 -/

/-- C3 (counterexample): a non-empty document with five sentences (more than
the target 4) for which the summarizer returns zero sentences, because no
sentence has an alphanumeric token; so "returns exactly targetCount sentences"
fails. -/
theorem C3_counterexample :
    4 < (toyLing.sentTokenize c10text).length ∧
    (top_sentences toyLing c10text 4).length = 0 ∧
    extractive_summary toyLing c10text 4 = "" := by decide

/-- C3 (amended): the summarizer returns `min targetCount (number of scored
sentences)` sentences — which is `targetCount` exactly when at least
`targetCount` sentences are scored — and the top-K property holds: every
returned sentence's score is at least the score of every scored sentence that
was not returned. -/
theorem C3_amended_topK (L : Ling) (text : String) (n : Nat) :
    (top_sentences L text n).length = min n (sentScores L text).length ∧
    ∀ p ∈ topPairs L text n, ∀ q ∈ sentScores L text,
      q.1 ∉ top_sentences L text n → q.2 ≤ p.2 := by
  constructor
  · simp [top_sentences, topPairs]
  · intro p hp q hq hq'
    set S := (sentScores L text).insertionSort scoreGe with hS
    have hqS : q ∈ S := (List.mem_insertionSort scoreGe).mpr hq
    have hqtake : q ∉ S.take n := fun hmem => hq' (List.mem_map_of_mem Prod.fst hmem)
    have hqdrop : q ∈ S.drop n := by
      rcases List.mem_append.mp ((List.take_append_drop n S) ▸ hqS) with h | h
      · exact absurd h hqtake
      · exact h
    have hsorted : (S.take n ++ S.drop n).Pairwise scoreGe := by
      rw [List.take_append_drop]
      exact List.sorted_insertionSort scoreGe (sentScores L text)
    exact (List.pairwise_append.mp hsorted).2.2 p hp q hqdrop

theorem C3_amended_topK_witness :
    ("cats cats cats", (4 : ℚ)) ∈ topPairs toyLing c1text 2 ∧
    ("dogs win", mkRat 5 2) ∈ sentScores toyLing c1text ∧
    "dogs win" ∉ top_sentences toyLing c1text 2 ∧
    (mkRat 5 2 : ℚ) ≤ (4 : ℚ) :=
  ⟨by decide, by decide, by decide,
   (C3_amended_topK toyLing c1text 2).2 ("cats cats cats", (4 : ℚ)) (by decide)
     ("dogs win", mkRat 5 2) (by decide) (by decide)⟩

/-! ## C10 -/

/-- C10: a non-empty document with more sentences than the target for which
the summarizer returns fewer than `targetCount` sentences — here the empty
string: every sentence lacks alphanumeric tokens, so no sentence is scored and
the selected set is empty. -/
theorem C10_empty_summary :
    c10text ≠ "" ∧
    4 < (toyLing.sentTokenize c10text).length ∧
    (∀ s ∈ toyLing.sentTokenize c10text, sentWords toyLing s = []) ∧
    extractive_summary toyLing c10text 4 = "" := by decide

/-! ## Quiz synthesizer (`generate_quiz`, app.py lines 47-100)

Randomness (`random.choice`, `random.sample(k=3)`, `random.shuffle`) becomes
an explicit state-threaded source, as §9 of the design recommends.  Theorems
assume only the contracts Python's `random` guarantees: `choice` returns an
element of a non-empty list, `sample` returns 3 distinct elements of the
lexicon, `shuffle` returns a permutation. -/

/-- Quiz item as produced by `generate_quiz` or the `/quiz` route's
placeholder (`type` ∈ {mcq, short, info}). -/
inductive QuizItem where
  | mcq (question answer : String) (options : List String) (correct_idx : Nat)
  | short (question answer : String)
  | info (question answer : String) (options : List String) (correct_idx : Int)
deriving DecidableEq

/-- An explicit source of random draws with threaded state `σ`. -/
structure RandSrc (σ : Type) where
  choice : σ → List String → String × σ
  sample3 : σ → List String → List String × σ
  shuffle : σ → List String → List String × σ

/-- The fixed distractor lexicon of app.py line 80. -/
def lexicon : List String :=
  ["system", "method", "data", "model", "process", "example", "result"]

/-- Blank target selection (app.py lines 69-72): a random noun, or the
literal fallback `"concept"` when no noun was found. -/
def chooseTarget {σ : Type} (R : RandSrc σ) (nouns : List String) (s : σ) :
    String × σ :=
  if nouns.isEmpty then ("concept", s) else R.choice s nouns

/-- Cloze question text (app.py line 75): replace the first case-insensitive
occurrence of the target, then strip whitespace. -/
def questionText (target sent : String) : String :=
  pyStrip (ciSubFirst target "____" sent)

/-- MCQ construction (app.py lines 78-92). -/
def mkMcq {σ : Type} (R : RandSrc σ) (target sent : String) (s1 : σ) :
    QuizItem × σ :=
  let ds := R.sample3 s1 lexicon
  let correct := pyCapitalize (pyStripPunct target)
  let os := R.shuffle ds.2 (correct :: ds.1)
  (QuizItem.mcq (questionText target sent) correct os.1 (os.1.indexOf correct), os.2)

/-- ShortAnswer construction (app.py lines 93-98). -/
def mkShort {σ : Type} (target sent : String) (s1 : σ) : QuizItem × σ :=
  (QuizItem.short (questionText target sent) (pyLower (pyStripPunct target)), s1)

/-- One loop iteration's item construction (app.py lines 67-98), after the
sentence has been drawn: `q_type = 'mcq' if i < num_questions // 2 else 'short'`. -/
def buildItem {σ : Type} (R : RandSrc σ) (nouns : List String) (numQ i : Nat)
    (sent : String) (s : σ) : QuizItem × σ :=
  if i < numQ / 2 then
    mkMcq R (chooseTarget R nouns s).1 sent (chooseTarget R nouns s).2
  else
    mkShort (chooseTarget R nouns s).1 sent (chooseTarget R nouns s).2

/-- The `for i in range(num_questions)` loop of app.py lines 59-98, with the
chosen source sentence recorded next to each produced item.  `used` plays the
role of the `used_sentences` set. -/
def quizAux {σ : Type} (R : RandSrc σ) (nouns sentences : List String)
    (numQ : Nat) : List Nat → List String → σ → List (QuizItem × String)
  | [], _, _ => []
  | i :: rest, used, s =>
    let available := sentences.filter (fun x => !(used.contains x))
    if available.isEmpty then []
    else
      let cs := R.choice s available
      let bi := buildItem R nouns numQ i cs.1 cs.2
      (bi.1, cs.1) :: quizAux R nouns sentences numQ rest (cs.1 :: used) bi.2

/-- Embedding of `generate_quiz(summary, num_questions=6)`, instrumented so
that each item is paired with the source sentence it was built from.
`list(set(nouns))` has unspecified (hash) order in Python; it is modelled by
`List.dedup`, which fixes one order — no claim depends on which. -/
def summaryNouns (L : Ling) (summary : String) : List String :=
  (((L.posTag (L.wordTokenize (pyLower summary))).filter fun p =>
    List.isPrefixOf "NN".data p.2.data).map Prod.fst).dedup

def quizWithSources {σ : Type} (L : Ling) (R : RandSrc σ) (s0 : σ)
    (summary : String) (numQ : Nat := 6) : List (QuizItem × String) :=
  if (L.sentTokenize summary).isEmpty then []
  else quizAux R (summaryNouns L summary) (L.sentTokenize summary) numQ
    (List.range numQ) [] s0

/-- Embedding of `generate_quiz(summary, num_questions=6)` (app.py 47-100):
the produced quiz, sources forgotten. -/
def generate_quiz {σ : Type} (L : Ling) (R : RandSrc σ) (s0 : σ)
    (summary : String) (numQ : Nat := 6) : List QuizItem :=
  (quizWithSources L R s0 summary numQ).map Prod.fst

/-- A concrete deterministic randomness source driven by a tape of indices:
`choice` picks the head index (mod list length), `sample3` takes the first
three elements, `shuffle` is the identity permutation. -/
def tapeRand : RandSrc (List Nat) where
  choice := fun s l => (l.getD (s.headD 0 % l.length) "", s.tail)
  sample3 := fun s l => (l.take 3, s)
  shuffle := fun s l => (l, s)

/-- Two-sentence summary whose only noun, "budget", occurs in the first
sentence but not in the second. -/
def c9summary : String := "The budget is big.|Cats sleep here."

/-! ## C9 -/

/-- C9: the blank target is drawn from the distinct noun set of the whole
summary, so a quiz item can blank nothing: here the noun "budget" occurs in
the summary but not in the chosen sentence, giving a question text equal to
the stripped sentence, without any `____` marker, while the stored answer is
still "budget". -/
theorem C9_blankless_item :
    generate_quiz toyLing tapeRand [1, 0] c9summary 1 =
      [QuizItem.short "Cats sleep here." "budget"] ∧
    (findCI "budget".data c9summary.data).isSome = true ∧
    findCI "budget".data "Cats sleep here.".data = none ∧
    isSubstr "____" "Cats sleep here." = false := by decide

/-! ## C4: MCQ option integrity -/

theorem toNat_ofNat_of_valid {m : Nat} (h : m < 55296) : (Char.ofNat m).toNat = m := by
  have hv : m.isValidChar := Or.inl h
  simp [Char.ofNat, hv, Char.ofNatAux, Char.toNat, UInt32.toNat]

/-- The `toUpper` of any character never has a code point in the lower-case
ASCII range. -/
theorem toUpper_toNat_ne (c : Char) (m : Nat) (h97 : 97 ≤ m) (h122 : m ≤ 122) :
    (Char.toUpper c).toNat ≠ m := by
  unfold Char.toUpper
  show (if c.toNat ≥ 97 ∧ c.toNat ≤ 122 then Char.ofNat (c.toNat - 32) else c).toNat ≠ m
  split
  · rename_i h
    rw [toNat_ofNat_of_valid (by omega)]
    omega
  · rename_i h
    omega

/-- Distractors are all-lower-case words, while `str.capitalize()` forces an
upper-case (or non-letter) first character, so the correct option can never
collide with a distractor, whatever the blanked noun was. -/
theorem pyCapitalize_not_mem_lexicon (x : String) : pyCapitalize x ∉ lexicon := by
  intro hx
  rw [pyCapitalize] at hx
  rcases hdata : x.data with _ | ⟨c, rest⟩
  · rw [hdata] at hx
    exact absurd hx (by decide)
  · rw [hdata] at hx
    simp only [lexicon, List.mem_cons, List.not_mem_nil, or_false] at hx
    rcases hx with h | h | h | h | h | h | h
    · have h2 : c.toUpper = 's' := by
        have := congrArg (fun t => t.data.head?) h
        simpa using this
      exact toUpper_toNat_ne c 115 (by decide) (by decide) (by rw [h2]; rfl)
    · have h2 : c.toUpper = 'm' := by
        have := congrArg (fun t => t.data.head?) h
        simpa using this
      exact toUpper_toNat_ne c 109 (by decide) (by decide) (by rw [h2]; rfl)
    · have h2 : c.toUpper = 'd' := by
        have := congrArg (fun t => t.data.head?) h
        simpa using this
      exact toUpper_toNat_ne c 100 (by decide) (by decide) (by rw [h2]; rfl)
    · have h2 : c.toUpper = 'm' := by
        have := congrArg (fun t => t.data.head?) h
        simpa using this
      exact toUpper_toNat_ne c 109 (by decide) (by decide) (by rw [h2]; rfl)
    · have h2 : c.toUpper = 'p' := by
        have := congrArg (fun t => t.data.head?) h
        simpa using this
      exact toUpper_toNat_ne c 112 (by decide) (by decide) (by rw [h2]; rfl)
    · have h2 : c.toUpper = 'e' := by
        have := congrArg (fun t => t.data.head?) h
        simpa using this
      exact toUpper_toNat_ne c 101 (by decide) (by decide) (by rw [h2]; rfl)
    · have h2 : c.toUpper = 'r' := by
        have := congrArg (fun t => t.data.head?) h
        simpa using this
      exact toUpper_toNat_ne c 114 (by decide) (by decide) (by rw [h2]; rfl)

/-- Integrity of one MCQ construction, under the `random` contracts. -/
theorem mkMcq_integrity {σ : Type} (R : RandSrc σ) (target sent : String) (s1 : σ)
    (hsample : (R.sample3 s1 lexicon).1.length = 3 ∧ (R.sample3 s1 lexicon).1.Nodup ∧
      ∀ d ∈ (R.sample3 s1 lexicon).1, d ∈ lexicon)
    (hshuffle : ∀ (s : σ) (l : List String), (R.shuffle s l).1.Perm l)
    {q a : String} {o : List String} {ci : Nat}
    (h : (mkMcq R target sent s1).1 = QuizItem.mcq q a o ci) :
    o.length = 4 ∧ o.Nodup ∧ o.count a = 1 ∧ o.get? ci = some a := by
  obtain ⟨hlen, hnd, hsub⟩ := hsample
  rw [mkMcq] at h
  injection h with h1 h2 h3 h4
  subst h2 h3 h4
  have hperm := hshuffle (R.sample3 s1 lexicon).2
    (pyCapitalize (pyStripPunct target) :: (R.sample3 s1 lexicon).1)
  have hnotmem : pyCapitalize (pyStripPunct target) ∉ (R.sample3 s1 lexicon).1 :=
    fun hm => pyCapitalize_not_mem_lexicon _ (hsub _ hm)
  have hcount : (R.shuffle (R.sample3 s1 lexicon).2
      (pyCapitalize (pyStripPunct target) :: (R.sample3 s1 lexicon).1)).1.count
      (pyCapitalize (pyStripPunct target)) = 1 := by
    rw [hperm.count_eq]
    simp [List.count_cons_self, List.count_eq_zero.mpr hnotmem]
  have hmem : pyCapitalize (pyStripPunct target) ∈ (R.shuffle (R.sample3 s1 lexicon).2
      (pyCapitalize (pyStripPunct target) :: (R.sample3 s1 lexicon).1)).1 :=
    List.count_pos_iff.mp (by omega)
  refine ⟨?_, ?_, hcount, ?_⟩
  · rw [hperm.length_eq]
    simp [hlen]
  · exact hperm.nodup_iff.mpr (List.nodup_cons.mpr ⟨hnotmem, hnd⟩)
  · exact List.indexOf_get? hmem

/-- Integrity of MCQ items across the generation loop. -/
theorem quizAux_mcq_integrity {σ : Type} (R : RandSrc σ)
    (nouns sentences : List String) (numQ : Nat)
    (hsample : ∀ s : σ, (R.sample3 s lexicon).1.length = 3 ∧
      (R.sample3 s lexicon).1.Nodup ∧ ∀ d ∈ (R.sample3 s lexicon).1, d ∈ lexicon)
    (hshuffle : ∀ (s : σ) (l : List String), (R.shuffle s l).1.Perm l) :
    ∀ (idxs : List Nat) (used : List String) (s : σ) (q a : String)
      (o : List String) (ci : Nat) (src : String),
      (QuizItem.mcq q a o ci, src) ∈ quizAux R nouns sentences numQ idxs used s →
      o.length = 4 ∧ o.Nodup ∧ o.count a = 1 ∧ o.get? ci = some a := by
  intro idxs
  induction idxs with
  | nil =>
    intro used s q a o ci src hmem
    simp [quizAux] at hmem
  | cons i rest ih =>
    intro used s q a o ci src hmem
    rw [quizAux] at hmem
    split at hmem
    · simp at hmem
    · rcases List.mem_cons.mp hmem with h | h
      · have hpair := Prod.mk.inj h
        have hitem := hpair.1
        rw [buildItem] at hitem
        split at hitem
        · exact mkMcq_integrity R _ _ _ (hsample _) hshuffle hitem.symm
        · exact absurd hitem.symm (by rw [mkShort]; intro hc; cases hc)
      · exact ih _ _ _ _ _ _ _ h

/-- C4: every MCQ item of any generated quiz has exactly 4 pairwise-distinct
options, contains its stored (capitalized) correct answer exactly once, and
its stored index points at that answer, assuming only the contracts of
Python's `random.sample` (3 distinct elements of the lexicon) and
`random.shuffle` (a permutation). -/
theorem C4_mcq_integrity {σ : Type} (L : Ling) (R : RandSrc σ) (s0 : σ)
    (summary : String) (numQ : Nat)
    (hsample : ∀ s : σ, (R.sample3 s lexicon).1.length = 3 ∧
      (R.sample3 s lexicon).1.Nodup ∧ ∀ d ∈ (R.sample3 s lexicon).1, d ∈ lexicon)
    (hshuffle : ∀ (s : σ) (l : List String), (R.shuffle s l).1.Perm l) :
    ∀ (q a : String) (o : List String) (ci : Nat),
      QuizItem.mcq q a o ci ∈ generate_quiz L R s0 summary numQ →
      o.length = 4 ∧ o.Nodup ∧ o.count a = 1 ∧ o.get? ci = some a := by
  intro q a o ci h
  rw [generate_quiz] at h
  obtain ⟨⟨item, src⟩, hmem, heq⟩ := List.mem_map.mp h
  cases heq
  rw [quizWithSources] at hmem
  split at hmem
  · simp at hmem
  · exact quizAux_mcq_integrity R _ _ numQ hsample hshuffle (List.range numQ) [] s0 q a o ci src hmem

theorem C4_mcq_integrity_witness :
    QuizItem.mcq "The ____ is big." "Budget" ["Budget", "system", "method", "data"] 0 ∈
      generate_quiz toyLing tapeRand [0, 0] c9summary 2 ∧
    (["Budget", "system", "method", "data"] : List String).length = 4 ∧
    (["Budget", "system", "method", "data"] : List String).Nodup ∧
    (["Budget", "system", "method", "data"] : List String).count "Budget" = 1 ∧
    (["Budget", "system", "method", "data"] : List String).get? 0 = some "Budget" :=
  ⟨by decide,
   C4_mcq_integrity toyLing tapeRand [0, 0] c9summary 2
     (fun s => ⟨rfl, by show (lexicon.take 3).Nodup; decide,
       by show ∀ d ∈ lexicon.take 3, d ∈ lexicon; decide⟩)
     (fun s l => List.Perm.refl l)
     "The ____ is big." "Budget" ["Budget", "system", "method", "data"] 0 (by decide)⟩

/-! ## C5: quiz length, sentence uniqueness, early stop -/

/-- Each loop iteration removes the chosen sentence from the candidate pool,
so the quiz length is the number of iterations capped by the number of
distinct still-available sentences. -/
theorem quizAux_length {σ : Type} (R : RandSrc σ) (nouns sentences : List String)
    (numQ : Nat)
    (hchoice : ∀ (s : σ) (l : List String), l ≠ [] → (R.choice s l).1 ∈ l) :
    ∀ (idxs : List Nat) (used : List String) (s : σ),
      (quizAux R nouns sentences numQ idxs used s).length =
        min idxs.length ((sentences.filter (fun x => !(used.contains x))).toFinset.card) := by
  intro idxs
  induction idxs with
  | nil => intro used s; simp [quizAux]
  | cons i rest ih =>
    intro used s
    rw [quizAux]
    split
    · rename_i hemp
      rw [List.isEmpty_iff] at hemp
      rw [hemp]
      simp
    · rename_i hemp
      have hne : sentences.filter (fun x => !(used.contains x)) ≠ [] := by
        simpa [List.isEmpty_iff] using hemp
      have hmem := hchoice s _ hne
      rw [List.length_cons, ih]
      have hset : (sentences.filter (fun x =>
          !((((R.choice s (sentences.filter (fun x => !(used.contains x)))).1) :: used).contains x))).toFinset =
          (sentences.filter (fun x => !(used.contains x))).toFinset.erase
            (R.choice s (sentences.filter (fun x => !(used.contains x)))).1 := by
        ext a
        simp only [List.mem_toFinset, List.mem_filter, Finset.mem_erase,
          List.contains_cons, Bool.not_or, Bool.and_eq_true, Bool.not_eq_true',
          beq_eq_false_iff_ne, ne_eq]
        tauto
      rw [hset, Finset.card_erase_of_mem (List.mem_toFinset.mpr hmem)]
      have hpos : 0 < (sentences.filter (fun x => !(used.contains x))).toFinset.card :=
        Finset.card_pos.mpr ⟨_, List.mem_toFinset.mpr hmem⟩
      simp only [List.length_cons]
      omega

/-- The source sentences recorded along a quiz are distinct, lie in the
sentence list, and avoid the already-used set. -/
theorem quizAux_sources {σ : Type} (R : RandSrc σ) (nouns sentences : List String)
    (numQ : Nat)
    (hchoice : ∀ (s : σ) (l : List String), l ≠ [] → (R.choice s l).1 ∈ l) :
    ∀ (idxs : List Nat) (used : List String) (s : σ),
      ((quizAux R nouns sentences numQ idxs used s).map Prod.snd).Nodup ∧
      ∀ x ∈ (quizAux R nouns sentences numQ idxs used s).map Prod.snd,
        x ∈ sentences ∧ ¬ used.contains x := by
  intro idxs
  induction idxs with
  | nil => intro used s; simp [quizAux]
  | cons i rest ih =>
    intro used s
    rw [quizAux]
    split
    · simp
    · rename_i hemp
      have hne : sentences.filter (fun x => !(used.contains x)) ≠ [] := by
        simpa [List.isEmpty_iff] using hemp
      have hmem := hchoice s _ hne
      have hmem' := List.mem_filter.mp hmem
      rw [List.map_cons]
      constructor
      · rw [List.nodup_cons]
        refine ⟨fun hx => ?_, (ih _ _).1⟩
        have hres := (ih _ _).2 _ hx
        exact hres.2 (by simp)
      · intro x hx
        rcases List.mem_cons.mp hx with rfl | hx'
        · exact ⟨hmem'.1, by simpa using hmem'.2⟩
        · have hres := (ih _ _).2 _ hx'
          refine ⟨hres.1, fun hc => hres.2 ?_⟩
          have hxu : x ∈ used := by simpa using hc
          simp [hxu]

/-- C5: every generated quiz has at most `questionCount` items, no two items
are built from the same source sentence, and the quiz is shorter than
requested exactly when there are fewer distinct sentences than requested —
in which case every summary sentence has been used.  Only the `random.choice`
contract (an element of a non-empty list) is assumed. -/
theorem C5_quiz_shape {σ : Type} (L : Ling) (R : RandSrc σ) (s0 : σ)
    (summary : String) (numQ : Nat)
    (hchoice : ∀ (s : σ) (l : List String), l ≠ [] → (R.choice s l).1 ∈ l) :
    (generate_quiz L R s0 summary numQ).length ≤ numQ ∧
    ((quizWithSources L R s0 summary numQ).map Prod.snd).Nodup ∧
    (∀ x ∈ (quizWithSources L R s0 summary numQ).map Prod.snd,
      x ∈ L.sentTokenize summary) ∧
    ((generate_quiz L R s0 summary numQ).length < numQ ↔
      (L.sentTokenize summary).dedup.length < numQ) ∧
    ((generate_quiz L R s0 summary numQ).length < numQ →
      ∀ x ∈ L.sentTokenize summary,
        x ∈ (quizWithSources L R s0 summary numQ).map Prod.snd) := by
  have hlen : (generate_quiz L R s0 summary numQ).length =
      (quizWithSources L R s0 summary numQ).length := by
    rw [generate_quiz, List.length_map]
  rw [quizWithSources] at *
  split at hlen
  · rename_i hemp
    rw [List.isEmpty_iff] at hemp
    rw [generate_quiz, quizWithSources]
    simp [hemp, quizAux]
  · rename_i hemp
    have hq : (quizAux R (summaryNouns L summary)
        (L.sentTokenize summary) numQ (List.range numQ) [] s0).length =
        min numQ (L.sentTokenize summary).dedup.length := by
      rw [quizAux_length R _ _ numQ hchoice (List.range numQ) [] s0]
      simp [List.card_toFinset]
    have hsrc := quizAux_sources R (summaryNouns L summary)
      (L.sentTokenize summary) numQ hchoice (List.range numQ) [] s0
    rw [generate_quiz, quizWithSources]
    split
    · rename_i hemp2
      exact absurd hemp2 hemp
    · rw [List.length_map]
      refine ⟨by omega, hsrc.1, fun x hx => (hsrc.2 x hx).1, by omega, ?_⟩
      intro hshort x hx
      rw [hq] at hshort
      set qs := (quizAux R (summaryNouns L summary)
          (L.sentTokenize summary) numQ (List.range numQ) [] s0).map Prod.snd with hqs
      have hsub : qs.toFinset ⊆ (L.sentTokenize summary).toFinset := by
        intro a ha
        exact List.mem_toFinset.mpr ((hsrc.2 a (List.mem_toFinset.mp ha)).1)
      have hcard : (L.sentTokenize summary).toFinset.card ≤ qs.toFinset.card := by
        rw [List.toFinset_card_of_nodup hsrc.1, List.card_toFinset, hqs, List.length_map]
        omega
      have heq := Finset.eq_of_subset_of_card_le hsub hcard
      exact List.mem_toFinset.mp (heq ▸ List.mem_toFinset.mpr hx)

theorem C5_quiz_choice_contract :
    ∀ (s : List Nat) (l : List String), l ≠ [] → (tapeRand.choice s l).1 ∈ l := by
  intro s l hl
  show l.getD (s.headD 0 % l.length) "" ∈ l
  have hlen : 0 < l.length := List.length_pos.mpr hl
  have hlt : s.headD 0 % l.length < l.length := Nat.mod_lt _ hlen
  rw [List.getD_eq_getElem?_getD, List.getElem?_eq_getElem hlt]
  exact List.getElem_mem hlt

theorem C5_quiz_shape_witness :
    (generate_quiz toyLing tapeRand [0, 0] c9summary 2).length ≤ 2 ∧
    ((quizWithSources toyLing tapeRand [0, 0] c9summary 2).map Prod.snd).Nodup ∧
    (∀ x ∈ (quizWithSources toyLing tapeRand [0, 0] c9summary 2).map Prod.snd,
      x ∈ toyLing.sentTokenize c9summary) ∧
    ((generate_quiz toyLing tapeRand [0, 0] c9summary 2).length < 2 ↔
      (toyLing.sentTokenize c9summary).dedup.length < 2) ∧
    ((generate_quiz toyLing tapeRand [0, 0] c9summary 2).length < 2 →
      ∀ x ∈ toyLing.sentTokenize c9summary,
        x ∈ (quizWithSources toyLing tapeRand [0, 0] c9summary 2).map Prod.snd) :=
  C5_quiz_shape toyLing tapeRand [0, 0] c9summary 2 C5_quiz_choice_contract

/-! ## Concept extractor (`extract_concepts`, app.py lines 103-109) -/

/-- Tokens counted by the concept extractor:
`[w.lower() for w in word_tokenize(summary) if w.isalpha() and w.lower() not in stop_words]`. -/
def conceptWords (L : Ling) (summary : String) : List String :=
  (L.wordTokenize summary).filterMap fun w =>
    if pyIsAlpha w && !(L.stopWords.contains (pyLower w)) then some (pyLower w) else none

/-- First-occurrence deduplication with an accumulator of already-seen keys:
the key order of a Python dict/`Counter` built by successive insertions. -/
def firstDedupAux : List String → List String → List String
  | [], _ => []
  | x :: rest, seen =>
    if seen.contains x then firstDedupAux rest seen
    else x :: firstDedupAux rest (x :: seen)

/-- Model of `Counter(words)`: one `(key, count)` entry per distinct token, in
first-insertion order, carrying the total count. -/
def counter (ws : List String) : List (String × Nat) :=
  (firstDedupAux ws []).map fun w => (w, ws.count w)

/-- Relation realizing `most_common(n)` (`heapq.nlargest` by count): stable
descending order by count, first-encountered preferred among ties. -/
def countGe (a b : String × Nat) : Prop := b.2 ≤ a.2

instance : DecidableRel countGe := fun a b => inferInstanceAs (Decidable (b.2 ≤ a.2))

instance : IsTotal (String × Nat) countGe := ⟨fun a b => Nat.le_total b.2 a.2⟩

instance : IsTrans (String × Nat) countGe := ⟨fun _ _ _ h1 h2 => Nat.le_trans h2 h1⟩

/-- Model of `Counter.most_common(n)`. -/
def most_common (c : List (String × Nat)) (n : Nat) : List (String × Nat) :=
  (c.insertionSort countGe).take n

/-- Embedding of `extract_concepts(summary, top_n=15)` (app.py lines 103-109);
an entry `(term, count)` stands for the `{'term': .., 'count': ..}` dict. -/
def extract_concepts (L : Ling) (summary : String) (top_n : Nat := 15) :
    List (String × Nat) :=
  most_common (counter (conceptWords L summary)) top_n

/-! ## C8 lemmas -/

theorem mem_firstDedupAux :
    ∀ {l seen : List String} {a : String},
      a ∈ firstDedupAux l seen ↔ a ∈ l ∧ a ∉ seen
  | [], seen, a => by simp [firstDedupAux]
  | x :: rest, seen, a => by
    rw [firstDedupAux]
    split
    · rename_i hx
      rw [mem_firstDedupAux]
      have hxs : x ∈ seen := by simpa using hx
      constructor
      · rintro ⟨h1, h2⟩
        exact ⟨List.mem_cons_of_mem _ h1, h2⟩
      · rintro ⟨h1, h2⟩
        rcases List.mem_cons.mp h1 with rfl | h1'
        · exact absurd hxs h2
        · exact ⟨h1', h2⟩
    · rename_i hx
      have hxs : x ∉ seen := by simpa using hx
      rw [List.mem_cons, mem_firstDedupAux]
      constructor
      · rintro (rfl | ⟨h1, h2⟩)
        · exact ⟨List.mem_cons_self _ _, hxs⟩
        · refine ⟨List.mem_cons_of_mem _ h1, fun hc => h2 (List.mem_cons_of_mem _ hc)⟩
      · rintro ⟨h1, h2⟩
        by_cases hax : a = x
        · exact Or.inl hax
        · rcases List.mem_cons.mp h1 with rfl | h1'
          · exact absurd rfl hax
          · exact Or.inr ⟨h1', fun hc => by
              rcases List.mem_cons.mp hc with rfl | hc'
              · exact hax rfl
              · exact h2 hc'⟩

/-- Keys of `firstDedupAux` are ordered by first occurrence in the scanned
list. -/
theorem firstDedupAux_pairwise_indexOf :
    ∀ (l seen : List String),
      (firstDedupAux l seen).Pairwise fun a b => l.indexOf a < l.indexOf b
  | [], _ => List.Pairwise.nil
  | x :: rest, seen => by
    rw [firstDedupAux]
    split
    · rename_i hx
      have hxs : x ∈ seen := by simpa using hx
      refine (firstDedupAux_pairwise_indexOf rest seen).imp_of_mem ?_
      intro a b ha hb hab
      have ha' := (mem_firstDedupAux.mp ha).2
      have hb' := (mem_firstDedupAux.mp hb).2
      have hax : a ≠ x := fun h => ha' (h ▸ hxs)
      have hbx : b ≠ x := fun h => hb' (h ▸ hxs)
      rw [List.indexOf_cons_ne _ (fun h => hax h.symm),
        List.indexOf_cons_ne _ (fun h => hbx h.symm)]
      omega
    · rename_i hx
      refine List.Pairwise.cons ?_ ?_
      · intro b hb
        have hb' := mem_firstDedupAux.mp hb
        have hbx : b ≠ x := fun h => hb'.2 (h ▸ List.mem_cons_self _ _)
        rw [List.indexOf_cons_self, List.indexOf_cons_ne _ (fun h => hbx h.symm)]
        omega
      · refine (firstDedupAux_pairwise_indexOf rest (x :: seen)).imp_of_mem ?_
        intro a b ha hb hab
        have ha' := (mem_firstDedupAux.mp ha).2
        have hb' := (mem_firstDedupAux.mp hb).2
        have hax : a ≠ x := fun h => ha' (h ▸ List.mem_cons_self _ _)
        have hbx : b ≠ x := fun h => hb' (h ▸ List.mem_cons_self _ _)
        rw [List.indexOf_cons_ne _ (fun h => hax h.symm),
          List.indexOf_cons_ne _ (fun h => hbx h.symm)]
        omega

theorem firstDedupAux_nodup (l seen : List String) :
    (firstDedupAux l seen).Nodup :=
  (firstDedupAux_pairwise_indexOf l seen).imp fun h heq => by
    subst heq
    omega

/-- Either order of two distinct common elements embeds as a pair sublist. -/
theorem pair_sublist_of_mem {α : Type} {x y : α} (hxy : x ≠ y) :
    ∀ {l : List α}, x ∈ l → y ∈ l → [x, y].Sublist l ∨ [y, x].Sublist l
  | [], hx, _ => absurd hx (List.not_mem_nil x)
  | a :: l, hx, hy => by
    rcases List.mem_cons.mp hx with rfl | hx'
    · have hy' : y ∈ l := by
        rcases List.mem_cons.mp hy with h | h
        · exact absurd h.symm hxy
        · exact h
      exact Or.inl (List.Sublist.cons₂ _ (List.singleton_sublist.mpr hy'))
    · rcases List.mem_cons.mp hy with rfl | hy'
      · exact Or.inr (List.Sublist.cons₂ _ (List.singleton_sublist.mpr hx'))
      · rcases pair_sublist_of_mem hxy hx' hy' with h | h
        · exact Or.inl (h.cons _)
        · exact Or.inr (h.cons _)

/-- In a duplicate-free list a pair sublist fixes the order of first indices. -/
theorem indexOf_lt_of_pair_sublist {α : Type} [DecidableEq α] {x y : α} :
    ∀ {l : List α}, [x, y].Sublist l → l.Nodup → x ≠ y →
      l.indexOf x < l.indexOf y
  | [], h, _, _ => by cases h
  | a :: t, h, hnd, hxy => by
    cases h with
    | cons₂ _ h' =>
      have hyt : y ∈ t := List.singleton_sublist.mp h'
      rw [List.indexOf_cons_self, List.indexOf_cons_ne _ hxy]
      omega
    | cons _ h' =>
      have hnt : List.Nodup t := (List.nodup_cons.mp hnd).2
      have hat : a ∉ t := (List.nodup_cons.mp hnd).1
      have hxt : x ∈ t := h'.subset (by simp)
      have hyt : y ∈ t := h'.subset (by simp)
      have hxa : x ≠ a := fun hc => hat (hc ▸ hxt)
      have hya : y ≠ a := fun hc => hat (hc ▸ hyt)
      rw [List.indexOf_cons_ne _ (fun hc => hxa hc.symm),
        List.indexOf_cons_ne _ (fun hc => hya hc.symm)]
      have := indexOf_lt_of_pair_sublist h' hnt hxy
      omega

/-- Entries of the counter carry accurate totals over the token list. -/
theorem mem_counter {ws : List String} {p : String × Nat} (h : p ∈ counter ws) :
    p.1 ∈ ws ∧ p.2 = ws.count p.1 := by
  obtain ⟨w, hw, rfl⟩ := List.mem_map.mp h
  exact ⟨(mem_firstDedupAux.mp hw).1, rfl⟩

theorem counter_nodup (ws : List String) : (counter ws).Nodup :=
  (firstDedupAux_nodup ws []).map_on fun x _ y _ hxy =>
    congrArg Prod.fst hxy

/-- Counter keys ordered by first occurrence in the token list. -/
theorem counter_pairwise_indexOf (ws : List String) :
    (counter ws).Pairwise fun a b => ws.indexOf a.1 < ws.indexOf b.1 := by
  rw [counter, List.pairwise_map]
  exact firstDedupAux_pairwise_indexOf ws []

theorem counter_length (ws : List String) :
    (counter ws).length = ws.dedup.length := by
  rw [counter, List.length_map]
  have hnd := firstDedupAux_nodup ws []
  have hset : (firstDedupAux ws []).toFinset = ws.toFinset := by
    ext a
    simp [List.mem_toFinset, mem_firstDedupAux]
  calc (firstDedupAux ws []).length
      = (firstDedupAux ws []).toFinset.card := (List.toFinset_card_of_nodup hnd).symm
    _ = ws.toFinset.card := by rw [hset]
    _ = ws.dedup.length := List.card_toFinset ws

/-- Stability of the ranking: among tied counts, the earlier position in the
sorted output means the earlier first occurrence in the token list. -/
theorem most_common_tie_order (ws : List String) (n : Nat) :
    ∀ (i j : Nat) (hi : i < (most_common (counter ws) n).length)
      (hj : j < (most_common (counter ws) n).length), i < j →
      ((most_common (counter ws) n).get ⟨i, hi⟩).2 =
        ((most_common (counter ws) n).get ⟨j, hj⟩).2 →
      ws.indexOf ((most_common (counter ws) n).get ⟨i, hi⟩).1 <
        ws.indexOf ((most_common (counter ws) n).get ⟨j, hj⟩).1 := by
  intro i j hi hj hij hcnt
  have hiS : i < ((counter ws).insertionSort countGe).length :=
    lt_of_lt_of_le hi (by simpa [most_common] using List.length_take_le n _)
  have hjS : j < ((counter ws).insertionSort countGe).length := by
    have := hj
    simp only [most_common, List.length_take] at this
    omega
  have hgi : (most_common (counter ws) n).get ⟨i, hi⟩ =
      ((counter ws).insertionSort countGe).get ⟨i, hiS⟩ := by
    simp [most_common, List.getElem_take]
  have hgj : (most_common (counter ws) n).get ⟨j, hj⟩ =
      ((counter ws).insertionSort countGe).get ⟨j, hjS⟩ := by
    simp [most_common, List.getElem_take]
  rw [hgi, hgj] at hcnt ⊢
  set S := (counter ws).insertionSort countGe with hS
  have hSnodup : S.Nodup :=
    (List.perm_insertionSort countGe (counter ws)).nodup_iff.mpr (counter_nodup ws)
  set a := S.get ⟨i, hiS⟩ with ha
  set b := S.get ⟨j, hjS⟩ with hb
  have hab : a ≠ b := by
    intro hc
    have hia := List.indexOf_getElem hSnodup i hiS
    have hib := List.indexOf_getElem hSnodup j hjS
    rw [ha, hb] at hc
    simp only [List.get_eq_getElem] at hc
    rw [hc] at hia
    omega
  have haC : a ∈ counter ws := by
    have h0 : a ∈ S := by rw [ha]; exact List.get_mem S i hiS
    rw [hS] at h0
    exact (List.mem_insertionSort countGe).mp h0
  have hbC : b ∈ counter ws := by
    have h0 : b ∈ S := by rw [hb]; exact List.get_mem S j hjS
    rw [hS] at h0
    exact (List.mem_insertionSort countGe).mp h0
  rcases pair_sublist_of_mem hab haC hbC with hpair | hpair
  · have hp2 : ([a, b]).Pairwise
        (fun u v : String × Nat => ws.indexOf u.1 < ws.indexOf v.1) :=
      (counter_pairwise_indexOf ws).sublist hpair
    exact (List.pairwise_pair
      (R := fun u v : String × Nat => ws.indexOf u.1 < ws.indexOf v.1)).mp hp2
  · exfalso
    have hba : countGe b a := by
      rw [countGe, hcnt]
    have hSpair : [b, a].Sublist S :=
      List.pair_sublist_insertionSort hba hpair
    have hlt := indexOf_lt_of_pair_sublist hSpair hSnodup (Ne.symm hab)
    have hia := List.indexOf_getElem hSnodup i hiS
    have hib := List.indexOf_getElem hSnodup j hjS
    rw [ha, hb] at hlt
    simp only [List.get_eq_getElem] at hlt
    rw [hia, hib] at hlt
    omega

/-- Counter keys, in order, are the first-occurrence deduplication. -/
theorem counter_keys (ws : List String) :
    (counter ws).map Prod.fst = firstDedupAux ws [] := by
  rw [counter, List.map_map]
  rw [show (Prod.fst ∘ fun w => (w, ws.count w)) = id from rfl, List.map_id]

/-- Every token of the scanned list owns a counter entry carrying its exact
count. -/
theorem counter_mem_of_mem {ws : List String} {w : String} (hw : w ∈ ws) :
    (w, ws.count w) ∈ counter ws :=
  List.mem_map_of_mem _ (mem_firstDedupAux.mpr ⟨hw, by simp⟩)

/-- C8: the concept extractor returns at most `topN` entries — exactly
`min topN (number of distinct tokens)` — each an alphabetic lowercase
non-stop-word token of the summary paired with its exact occurrence count;
the returned terms are pairwise distinct; the ranking is by non-increasing
count with ties broken by first occurrence in the summary; the returned
entries really are the `topN` most frequent: every token left out has a count
at most that of every returned entry; and the extractor returns the empty
sequence when the summary has no tokens (in particular for an empty
summary). -/
theorem C8_concepts (L : Ling) (summary : String) (n : Nat) :
    (∀ p ∈ extract_concepts L summary n,
      p.1 ∈ conceptWords L summary ∧ p.2 = (conceptWords L summary).count p.1) ∧
    (extract_concepts L summary n).Pairwise countGe ∧
    (extract_concepts L summary n).length =
      min n ((conceptWords L summary).dedup.length) ∧
    (∀ (i j : Nat) (hi : i < (extract_concepts L summary n).length)
      (hj : j < (extract_concepts L summary n).length), i < j →
      ((extract_concepts L summary n).get ⟨i, hi⟩).2 =
        ((extract_concepts L summary n).get ⟨j, hj⟩).2 →
      (conceptWords L summary).indexOf ((extract_concepts L summary n).get ⟨i, hi⟩).1 <
        (conceptWords L summary).indexOf ((extract_concepts L summary n).get ⟨j, hj⟩).1) ∧
    ((extract_concepts L summary n).map Prod.fst).Nodup ∧
    (∀ w ∈ conceptWords L summary,
      w ∉ (extract_concepts L summary n).map Prod.fst →
      ∀ p ∈ extract_concepts L summary n,
        (conceptWords L summary).count w ≤ p.2) ∧
    (L.wordTokenize summary = [] → extract_concepts L summary n = []) := by
  refine ⟨?_, ?_, ?_, most_common_tie_order (conceptWords L summary) n, ?_, ?_, ?_⟩
  · intro p hp
    have hpC : p ∈ counter (conceptWords L summary) :=
      (List.mem_insertionSort countGe).mp (List.mem_of_mem_take hp)
    exact mem_counter hpC
  · exact (List.sorted_insertionSort countGe _).sublist (List.take_sublist _ _)
  · rw [extract_concepts, most_common, List.length_take, List.length_insertionSort,
      counter_length]
  · have hkeysnd : (((counter (conceptWords L summary)).insertionSort countGe).map
        Prod.fst).Nodup := by
      have hperm :=
        (List.perm_insertionSort countGe (counter (conceptWords L summary))).map Prod.fst
      rw [counter_keys] at hperm
      exact hperm.nodup_iff.mpr (firstDedupAux_nodup _ _)
    have hmt : (extract_concepts L summary n).map Prod.fst =
        ((((counter (conceptWords L summary)).insertionSort countGe).map Prod.fst).take n) := by
      rw [extract_concepts, most_common, List.map_take]
    rw [hmt]
    exact hkeysnd.sublist (List.take_sublist _ _)
  · intro w hw hnot p hp
    have hwc := counter_mem_of_mem hw
    have hqS : (w, (conceptWords L summary).count w) ∈
        (counter (conceptWords L summary)).insertionSort countGe :=
      (List.mem_insertionSort countGe).mpr hwc
    have hqtake : (w, (conceptWords L summary).count w) ∉
        ((counter (conceptWords L summary)).insertionSort countGe).take n := by
      intro hmem
      refine hnot ?_
      rw [extract_concepts, most_common]
      exact List.mem_map_of_mem Prod.fst hmem
    have hqdrop : (w, (conceptWords L summary).count w) ∈
        ((counter (conceptWords L summary)).insertionSort countGe).drop n := by
      have hqad : (w, (conceptWords L summary).count w) ∈
          ((counter (conceptWords L summary)).insertionSort countGe).take n ++
          ((counter (conceptWords L summary)).insertionSort countGe).drop n := by
        rw [List.take_append_drop]
        exact hqS
      rcases List.mem_append.mp hqad with h | h
      · exact absurd h hqtake
      · exact h
    have hsorted : (((counter (conceptWords L summary)).insertionSort countGe).take n ++
        ((counter (conceptWords L summary)).insertionSort countGe).drop n).Pairwise
          countGe := by
      rw [List.take_append_drop]
      exact List.sorted_insertionSort countGe _
    have hp' : p ∈ ((counter (conceptWords L summary)).insertionSort countGe).take n := by
      rw [extract_concepts, most_common] at hp
      exact hp
    exact (List.pairwise_append.mp hsorted).2.2 p hp' _ hqdrop
  · intro h
    have hcw : conceptWords L summary = [] := by
      rw [conceptWords, h]
      rfl
    rw [extract_concepts, hcw]
    simp [most_common, counter, firstDedupAux]

/-- Summary with tied counts ("cats" and "eat" both occur twice) to exercise
the tie-break clause. -/
def c8summary : String := "cats eat cats|dogs eat"

theorem C8_concepts_witness :
    ("cats", 2) ∈ extract_concepts toyLing c8summary 15 ∧
    "cats" ∈ conceptWords toyLing c8summary ∧
    (conceptWords toyLing c8summary).count "cats" = 2 ∧
    (conceptWords toyLing c8summary).indexOf "cats" <
      (conceptWords toyLing c8summary).indexOf "eat" ∧
    ((extract_concepts toyLing c8summary 2).map Prod.fst).Nodup ∧
    "dogs" ∈ conceptWords toyLing c8summary ∧
    "dogs" ∉ (extract_concepts toyLing c8summary 2).map Prod.fst ∧
    ("cats", 2) ∈ extract_concepts toyLing c8summary 2 ∧
    (conceptWords toyLing c8summary).count "dogs" ≤ 2 ∧
    extract_concepts toyLing "" 15 = [] := by
  refine ⟨by decide, ((C8_concepts toyLing c8summary 15).1 ("cats", 2) (by decide)).1,
    (((C8_concepts toyLing c8summary 15).1 ("cats", 2) (by decide)).2).symm, ?_,
    (C8_concepts toyLing c8summary 2).2.2.2.2.1,
    by decide, by decide, by decide, ?_,
    (C8_concepts toyLing "" 15).2.2.2.2.2.2 (by decide)⟩
  · have h := (C8_concepts toyLing c8summary 15).2.2.2.1 0 1 (by decide) (by decide)
      (by decide) (by decide)
    exact h
  · exact (C8_concepts toyLing c8summary 2).2.2.2.2.2.1 "dogs" (by decide) (by decide)
      ("cats", 2) (by decide)

/-! ## Scorer (`feedback_api`, app.py lines 220-270)

The handler grades `answers[i]` against `quiz[i]` for
`i < min(len(answers), len(quiz))` (the loop breaks at `i >= len(quiz)`),
accumulating score, per-question 0/1 marks and the answer keys of missed
items.  A raised exception (only possible from `.strip()` on a truthy
non-string answer to a short item) is modelled as `none`. -/

/-- A learner's submitted answer as decoded from the request JSON. -/
inductive UAns where
  | idx (n : Int)
  | text (s : String)
  | null
deriving DecidableEq

/-- The text graded for a `short` item: `(user_ans or "").strip().lower()`'s
argument.  Python's `or` takes `""` when the left operand is falsy (`None`,
`""`, `0`); a truthy non-string (a non-zero number) raises `AttributeError`
on `.strip()`, modelled as `none`. -/
def shortSubmitted : UAns → Option String
  | .text s => some s
  | .null => some ""
  | .idx n => if n = 0 then some "" else none

/-- Grading of one item (app.py lines 234-242): MCQ by index equality, short
answers by `q['answer'] in user_text and len(user_text) > 0`, anything of
unknown type incorrect.  `none` models a raised exception. -/
def gradeOne (q : QuizItem) (a : UAns) : Option Bool :=
  match q with
  | .mcq _ _ _ ci =>
    some (match a with
      | .idx n => n == (ci : Int)
      | _ => false)
  | .short _ key =>
    (shortSubmitted a).map fun t =>
      isSubstr key (pyLower (pyStrip t)) && pyLower (pyStrip t) != ""
  | .info _ _ _ _ => some false

/-- The stored answer key of an item (`q.get('answer', 'concept')`; every
variant carries one). -/
def answerKey : QuizItem → String
  | .mcq _ a _ _ => a
  | .short _ a => a
  | .info _ a _ _ => a

/-- The grading loop over the `enumerate(answers)` / quiz pairing, recording
each graded item's answer key and correctness. -/
def gradePairs : List (UAns × QuizItem) → Option (List (String × Bool))
  | [] => some []
  | (a, q) :: rest =>
    match gradeOne q a with
    | none => none
    | some b =>
      match gradePairs rest with
      | none => none
      | some tail => some ((answerKey q, b) :: tail)

/-- The grading outcome (`stats` dict of app.py lines 253-259). -/
structure Stats where
  score : Nat
  total : Nat
  percentage : ℚ
  per_question : List Nat
  weak_areas : List String
deriving DecidableEq

/-- Python `round(score/total*100, 1)` computed exactly over the rationals:
the tenths digit count `(2*(score*1000) + total) / (2*total)` (integer
division) is `⌊score*1000/total + 1/2⌋`, i.e. round-half-up; Python's float
`round` rounds half to even, which differs only at exact .05 ties where
binary floats differ from exact rationals anyway. -/
def pctRound1 (score total : Nat) : ℚ :=
  mkRat (((2 * (score * 1000) + total) / (2 * total) : Nat) : Int) 10

/-- Answer keys of missed items (`weak_areas` before deduplication). -/
def missedKeys (graded : List (String × Bool)) : List String :=
  (graded.filter fun p => !p.2).map Prod.fst

/-- Model of `list(set(weak_areas))[:5]`: Python's set iteration order is
unspecified (hash order); it is modelled as first-occurrence order — no claim
depends on which order the set fixes. -/
def weakAreas (missed : List String) : List String :=
  (firstDedupAux missed []).take 5

/-- Embedding of the grading part of `feedback_api` (app.py lines 220-259).
`total = len(per_question) or 1`; `per_question` has one entry per graded
pair, so its length is the graded-pair count. -/
def feedback (quiz : List QuizItem) (answers : List UAns) : Option Stats :=
  (gradePairs (answers.zip quiz)).map fun graded =>
    { score := (graded.filter fun p => p.2).length
      total := if graded.length = 0 then 1 else graded.length
      percentage := pctRound1 ((graded.filter fun p => p.2).length)
        (if graded.length = 0 then 1 else graded.length)
      per_question := graded.map fun p => if p.2 then (1 : Nat) else 0
      weak_areas := weakAreas (missedKeys graded) }

/-! ## C6 lemmas -/

theorem pyLower_eq_empty {t : String} : pyLower t = "" ↔ t = "" := by
  constructor
  · intro h
    have h2 : t.data.map Char.toLower = [] := congrArg String.data h
    have h3 : t.data = [] := List.map_eq_nil.mp h2
    cases t with
    | mk d => cases h3; rfl
  · rintro rfl
    rfl

theorem zip_take_length {α β : Type} :
    ∀ (xs : List α) (ys : List β), xs.zip ys = (xs.take ys.length).zip ys := by
  intro xs
  induction xs with
  | nil => intro ys; cases ys <;> rfl
  | cons x xs ih =>
    intro ys
    cases ys with
    | nil => rfl
    | cons y ys =>
      simp only [List.length_cons, List.take_succ_cons, List.zip_cons_cons]
      rw [← ih ys]

theorem gradePairs_length :
    ∀ {ps : List (UAns × QuizItem)} {g : List (String × Bool)},
      gradePairs ps = some g → g.length = ps.length
  | [], g, h => by
    rw [gradePairs] at h
    cases h
    rfl
  | (a, q) :: rest, g, h => by
    rw [gradePairs] at h
    cases hb : gradeOne q a with
    | none => rw [hb] at h; cases h
    | some b =>
      rw [hb] at h
      cases ht : gradePairs rest with
      | none => rw [ht] at h; cases h
      | some tail =>
        rw [ht] at h
        cases h
        simpa using gradePairs_length ht

/-- C6: an MCQ is graded correct exactly when the submitted value is the
stored index; a short answer exactly when the (lower-case) key is a
case-insensitive substring of the trimmed submission and that trimmed
submission is non-empty; an item of unknown type is never correct; and
length mismatches never raise — extra answers are ignored (grading equals
grading of the truncated answer list) and a short answer list grades exactly
`min` positions. -/
theorem C6_grading :
    (∀ (q a : String) (o : List String) (ci : Nat) (ans : UAns),
      gradeOne (QuizItem.mcq q a o ci) ans = some true ↔ ans = UAns.idx ci) ∧
    (∀ (qq key s : String), pyLower key = key →
      (gradeOne (QuizItem.short qq key) (UAns.text s) = some true ↔
        isSubstr (pyLower key) (pyLower (pyStrip s)) = true ∧ pyStrip s ≠ "")) ∧
    (∀ (q a : String) (o : List String) (ci : Int) (ans : UAns),
      gradeOne (QuizItem.info q a o ci) ans = some false) ∧
    (∀ (quiz : List QuizItem) (answers : List UAns),
      feedback quiz answers = feedback quiz (answers.take quiz.length)) ∧
    (∀ (quiz : List QuizItem) (answers : List UAns) (st : Stats),
      feedback quiz answers = some st →
      st.per_question.length = min answers.length quiz.length) := by
  refine ⟨?_, ?_, ?_, ?_, ?_⟩
  · intro q a o ci ans
    cases ans with
    | idx n => simp [gradeOne]
    | text s => simp [gradeOne]
    | null => simp [gradeOne]
  · intro qq key s hkey
    show some (isSubstr key (pyLower (pyStrip s)) && pyLower (pyStrip s) != "") =
        some true ↔ _
    rw [hkey]
    simp only [Option.some.injEq, Bool.and_eq_true, bne_iff_ne, ne_eq]
    constructor
    · rintro ⟨h1, h2⟩
      exact ⟨h1, fun hc => h2 (by rw [hc]; rfl)⟩
    · rintro ⟨h1, h2⟩
      exact ⟨h1, fun hc => h2 (pyLower_eq_empty.mp hc)⟩
  · intro q a o ci ans
    rfl
  · intro quiz answers
    rw [feedback, feedback, zip_take_length answers quiz]
  · intro quiz answers st h
    rw [feedback] at h
    cases hg : gradePairs (answers.zip quiz) with
    | none => rw [hg] at h; cases h
    | some g =>
      rw [hg] at h
      cases h
      show (g.map _).length = _
      rw [List.length_map, gradePairs_length hg, List.length_zip]

theorem C6_grading_witness :
    (gradeOne (QuizItem.mcq "q" "A" ["A", "b", "c", "d"] 1) (UAns.idx 1) = some true ↔
      UAns.idx 1 = UAns.idx ((1 : Nat) : Int)) ∧
    (gradeOne (QuizItem.short "q" "mammal") (UAns.text "Mammals have fur") = some true ↔
      isSubstr (pyLower "mammal") (pyLower (pyStrip "Mammals have fur")) = true ∧
        pyStrip "Mammals have fur" ≠ "") ∧
    gradeOne (QuizItem.info "i" "" [] (-1)) UAns.null = some false ∧
    (feedback [QuizItem.short "q" "mammal"]
        [UAns.text "Mammals have fur", UAns.null] =
      feedback [QuizItem.short "q" "mammal"]
        ([UAns.text "Mammals have fur", UAns.null].take 1)) ∧
    ((⟨1, 1, 100, [1], []⟩ : Stats)).per_question.length =
      min ([UAns.text "Mammals have fur"] : List UAns).length
        ([QuizItem.short "q" "mammal"] : List QuizItem).length :=
  ⟨C6_grading.1 "q" "A" ["A", "b", "c", "d"] 1 (UAns.idx 1),
   C6_grading.2.1 "q" "mammal" "Mammals have fur" (by decide),
   C6_grading.2.2.1 "i" "" [] (-1) UAns.null,
   C6_grading.2.2.2.1 [QuizItem.short "q" "mammal"]
     [UAns.text "Mammals have fur", UAns.null],
   C6_grading.2.2.2.2 [QuizItem.short "q" "mammal"] [UAns.text "Mammals have fur"]
     ⟨1, 1, 100, [1], []⟩ (by decide)⟩

/-! ## C7 lemmas -/

theorem mkRat_natCast_div (n d : Nat) : (mkRat n d : ℚ) = (n : ℚ) / (d : ℚ) := by
  rw [Rat.mkRat_eq_divInt, Rat.divInt_eq_div, Int.cast_natCast, Int.cast_natCast]

/-- The integer-division tenths value is exactly the half-up rounding of
`score/total * 100` to one decimal. -/
theorem pctRound1_eq (s t : Nat) (ht : 0 < t) :
    pctRound1 s t =
      ((round (((s : ℚ) / (t : ℚ)) * 100 * 10) : ℤ) : ℚ) / 10 := by
  have ht0 : (t : ℚ) ≠ 0 := Nat.cast_ne_zero.mpr (Nat.pos_iff_ne_zero.mp ht)
  have hx : ((s : ℚ) / (t : ℚ)) * 100 * 10 + 1 / 2 =
      ((2 * (s * 1000) + t : ℕ) : ℚ) / ((2 * t : ℕ) : ℚ) := by
    push_cast
    field_simp
    ring
  rw [round_eq, hx, Rat.floor_natCast_div_natCast, pctRound1, mkRat_natCast_div]
  rw [← Int.natCast_div, Int.cast_natCast]
  norm_num

theorem pctRound1_nonneg (s t : Nat) : 0 ≤ pctRound1 s t := by
  rw [pctRound1, mkRat_natCast_div]
  positivity

theorem pctRound1_le_100 (s t : Nat) (ht : 0 < t) (hst : s ≤ t) :
    pctRound1 s t ≤ 100 := by
  have htenths : (2 * (s * 1000) + t) / (2 * t) < 1001 :=
    (Nat.div_lt_iff_lt_mul (by omega)).mpr (by omega)
  have h2 : (((2 * (s * 1000) + t) / (2 * t) : ℕ) : ℚ) ≤ 1000 := by
    exact_mod_cast Nat.le_of_lt_succ htenths
  rw [pctRound1, mkRat_natCast_div]
  push_cast
  rw [div_le_iff (by norm_num : (0 : ℚ) < 10)]
  linarith

/-- C7: the grading result's `total` is the number of graded items floored at
1, its `percentage` is `round(score/total*100, 1)` and lies in `[0, 100]`,
its `weakAreas` is a duplicate-free list of at most 5 keys drawn from the
missed items, and an empty answer set yields `total = 1`, `score = 0`,
`percentage = 0` and an empty `perQuestion`. -/
theorem C7_grading_result (quiz : List QuizItem) (answers : List UAns)
    (st : Stats) (h : feedback quiz answers = some st) :
    st.total = max (min answers.length quiz.length) 1 ∧
    st.percentage =
      ((round ((st.score : ℚ) / (st.total : ℚ) * 100 * 10) : ℤ) : ℚ) / 10 ∧
    0 ≤ st.percentage ∧ st.percentage ≤ 100 ∧
    st.weak_areas.Nodup ∧ st.weak_areas.length ≤ 5 ∧
    (∃ g, gradePairs (answers.zip quiz) = some g ∧
      ∀ w ∈ st.weak_areas, w ∈ missedKeys g) ∧
    feedback quiz [] = some ⟨0, 1, 0, [], []⟩ := by
  cases hg : gradePairs (answers.zip quiz) with
  | none =>
    rw [feedback, hg] at h
    cases h
  | some g =>
    rw [feedback, hg, Option.map_some'] at h
    obtain rfl := (Option.some.inj h).symm
    have hn : g.length = min answers.length quiz.length := by
      rw [gradePairs_length hg, List.length_zip]
    have htotal : (0 : Nat) < if g.length = 0 then 1 else g.length := by
      split <;> omega
    have hscore : (g.filter fun p => p.2).length ≤
        (if g.length = 0 then 1 else g.length) := by
      have := List.length_filter_le (fun p => p.2) g
      split <;> omega

    refine ⟨?_, ?_, ?_, ?_, ?_, ?_, ?_, ?_⟩
    · show (if g.length = 0 then 1 else g.length) = _
      rw [← hn]
      split <;> omega
    · exact pctRound1_eq _ _ htotal
    · exact pctRound1_nonneg _ _
    · exact pctRound1_le_100 _ _ htotal hscore
    · exact (firstDedupAux_nodup _ _).sublist (List.take_sublist _ _)
    · show (List.take 5 _).length ≤ 5
      rw [List.length_take]
      omega
    · refine ⟨g, rfl, fun w hw => ?_⟩
      have hw' : w ∈ firstDedupAux (missedKeys g) [] := List.mem_of_mem_take hw
      exact (mem_firstDedupAux.mp hw').1
    · rfl

theorem C7_grading_result_witness :
    feedback [QuizItem.mcq "q" "A" ["A", "b", "c"] 0, QuizItem.short "s" "k"]
        [UAns.idx 1] = some ⟨0, 1, 0, [0], ["A"]⟩ ∧
    (0 : ℚ) ≤ (⟨0, 1, 0, [0], ["A"]⟩ : Stats).percentage ∧
    (⟨0, 1, 0, [0], ["A"]⟩ : Stats).percentage ≤ 100 ∧
    (⟨0, 1, 0, [0], ["A"]⟩ : Stats).total =
      max (min ([UAns.idx 1] : List UAns).length
        ([QuizItem.mcq "q" "A" ["A", "b", "c"] 0,
          QuizItem.short "s" "k"] : List QuizItem).length) 1 ∧
    feedback [QuizItem.mcq "q" "A" ["A", "b", "c"] 0, QuizItem.short "s" "k"] [] =
      some ⟨0, 1, 0, [], []⟩ := by
  have h := C7_grading_result
    [QuizItem.mcq "q" "A" ["A", "b", "c"] 0, QuizItem.short "s" "k"]
    [UAns.idx 1] ⟨0, 1, 0, [0], ["A"]⟩ (by decide)
  exact ⟨by decide, h.2.2.1, h.2.2.2.1, h.1, h.2.2.2.2.2.2.2⟩

end AIVOLVE
